import Mathlib

/-!
Verification of the Bubble Babble binary-to-text codec
(`bubblebabble.py`): a shallow embedding of `encode`, `decode` and their
helpers, and proofs of the specification's claims about them.

Bytes are modelled as natural numbers; the Python bit operations are
translated to arithmetic on `Nat`:
  `(b >> 6) & 3 = b / 64 % 4`, `(b >> 2) & 15 = b / 4 % 16`,
  `b & 3 = b % 4`, `(b >> 4) & 15 = b / 16 % 16`, `b & 15 = b % 16`,
and ORs of disjoint bit fields become sums.
Python exceptions (IndexError, ValueError from `str.index`, and
AssertionError with its message data) become the `Err` type below, and
`decode` returns `Except Err (List Nat)`.
-/

namespace BubbleBabble

/-- The vowel table `vow = "aeiouy"` from the source. -/
def vow : List Char := ['a', 'e', 'i', 'o', 'u', 'y']

/-- The consonant table `con = "bcdfghklmnprstvzx"` from the source; the
last entry `'x'` (index 16) is the frame delimiter. -/
def con : List Char :=
  ['b', 'c', 'd', 'f', 'g', 'h', 'k', 'l', 'm', 'n', 'p', 'r', 's', 't', 'v', 'z', 'x']

/-- Total vowel-table lookup, used where the source writes `vow[i]`. -/
def vowD (i : Nat) : Char := vow.getD i ' '

/-- Total consonant-table lookup, used where the source writes `con[i]`. -/
def conD (i : Nat) : Char := con.getD i ' '

/-- `con[-1]`, the frame delimiter character. -/
def xDelim : Char := conD (con.length - 1)

/-- The three characters the encoder emits for a byte `b0` under checksum
`C`: `vow[((b0 >> 6) & 3 + C) % 6]`, `con[(b0 >> 2) & 15]`,
`vow[((b0 & 3) + C // 6) % 6]` (source lines 29-31 and the odd tail). -/
def encOdd (C b : Nat) : List Char :=
  [vowD ((b / 64 % 4 + C) % 6), conD (b / 4 % 16), vowD ((b % 4 + C / 6) % 6)]

/-- The second half of a full-pair group: `con[(b1 >> 4) & 15]`, `"-"`,
`con[b1 & 15]` (source lines 34-36). -/
def encGroupTail (b1 : Nat) : List Char :=
  [conD (b1 / 16 % 16), '-', conD (b1 % 16)]

/-- The checksum-only tail `vow[C % 6]`, `con[-1]`, `vow[C // 6]`
(source lines 39-41). -/
def encEven (C : Nat) : List Char :=
  [vowD (C % 6), xDelim, vowD (C / 6)]

/-- The encoder's `for i in range(rounds)` loop (source lines 27-41),
with the running checksum `C` threaded through. -/
def encodeFrom (s : List Nat) (rounds i C : Nat) : List Char :=
  if _h : i < rounds then
    if i + 1 < rounds ∨ s.length % 2 = 1 then
      (encOdd C (s.getD (2 * i) 0)
          ++ (if i + 1 < rounds then encGroupTail (s.getD (2 * i + 1) 0) else []))
        ++ encodeFrom s rounds (i + 1)
            (if i + 1 < rounds then
               (C * 5 + s.getD (2 * i) 0 * 7 + s.getD (2 * i + 1) 0) % 36
             else C)
    else
      encEven C ++ encodeFrom s rounds (i + 1) C
  else []
termination_by rounds - i
decreasing_by all_goals omega

/-- `encode` from the source: delimiter, body of `1 + n // 2` rounds with
initial checksum 1, delimiter. -/
def encode (s : List Nat) : List Char :=
  xDelim :: encodeFrom s (1 + s.length / 2) 0 1 ++ [xDelim]

/-- The encoder loop again, with every sequence and table access checked
(`none` plays the role of Python's IndexError): used to state that
encoding has no error path. -/
def encodeFrom? (s : List Nat) (rounds i C : Nat) : Option (List Char) :=
  if _h : i < rounds then
    if i + 1 < rounds ∨ s.length % 2 = 1 then do
      let b0 ← s[2 * i]?
      let v1 ← vow[(b0 / 64 % 4 + C) % 6]?
      let c1 ← con[b0 / 4 % 16]?
      let v2 ← vow[(b0 % 4 + C / 6) % 6]?
      if _h2 : i + 1 < rounds then do
        let b1 ← s[2 * i + 1]?
        let c2 ← con[b1 / 16 % 16]?
        let c3 ← con[b1 % 16]?
        let rest ← encodeFrom? s rounds (i + 1) ((C * 5 + b0 * 7 + b1) % 36)
        some ([v1, c1, v2, c2, '-', c3] ++ rest)
      else do
        let rest ← encodeFrom? s rounds (i + 1) C
        some ([v1, c1, v2] ++ rest)
    else do
      let v1 ← vow[C % 6]?
      let v2 ← vow[C / 6]?
      let rest ← encodeFrom? s rounds (i + 1) C
      some ([v1, xDelim, v2] ++ rest)
  else some []
termination_by rounds - i
decreasing_by all_goals omega

/-- Checked variant of `encode`. -/
def encode? (s : List Nat) : Option (List Char) := do
  let body ← encodeFrom? s (1 + s.length / 2) 0 1
  some (xDelim :: body ++ [xDelim])

/-- The ways `decode` can fail, one constructor per raise site class in
the source: `indexError` for an out-of-range sequence access,
`notInTable` for `str.index` on a character absent from its table
(Python ValueError, which carries no position), `corruptChar p` for the
`assert`s whose message is `"Corrupt char at %d" % p`, and one
constructor for each of the three framing/length `assert`s. -/
inductive Err : Type where
  | indexError : Err
  | notInTable : Err
  | corruptChar : Nat → Err
  | badBegin : Err
  | badEnd : Err
  | badLength : Err
deriving DecidableEq

/-- The 0-based character offset carried by a failure, when there is one:
only the `"Corrupt char at %d"` assertions embed a position. -/
def Err.position : Err → Option Nat
  | .corruptChar p => some p
  | _ => none

/-- `tbl.index c` from the source: the first index of `c`, or a
ValueError (`notInTable`) if absent. -/
def strIndex (tbl : List Char) (c : Char) : Option Nat :=
  match tbl with
  | [] => none
  | x :: xs => if x = c then some 0 else (strIndex xs c).map (· + 1)

/-- `_decode_3way` from the source: recover a byte from vowel index `a`,
consonant index `b`, vowel index `c` under checksum `C`, reporting
positions `pos`, `pos+1`, `pos+2`.  The Python expressions
`(a - (C%6) + 6) % 6` and `(c - ((C//6) % 6)) % 6` are written with the
`+ 6` first so that the subtraction never truncates on `Nat` (in Python
the second one may go negative and `%` brings it back; the values
agree). -/
def decode3way (a b c pos C : Nat) : Except Err Nat :=
  let h2 := (a + 6 - C % 6) % 6
  if h2 < 4 then
    if b < 16 then
      let m4 := b
      let l2 := (c + 6 - C / 6 % 6) % 6
      if l2 < 4 then .ok (h2 * 64 + m4 * 4 + l2)
      else .error (.corruptChar (pos + 2))
    else .error (.corruptChar (pos + 1))
  else .error (.corruptChar pos)

/-- `_decode_2way` from the source: recover a byte from two consonant
nibble indices, reporting positions `pos`, `pos+1`. -/
def decode2way (a b pos : Nat) : Except Err Nat :=
  if a < 16 then
    if b < 16 then .ok (a * 16 + b)
    else .error (.corruptChar (pos + 1))
  else .error (.corruptChar pos)

/-- `_decode_tuple` from the source: table indices of `t[0]`, `t[1]`,
`t[2]`, and when `len(t) > 4` also of `t[3]` and `t[5]` (`t[4]`, the
separator slot, is never read).  `pos` is accepted and unused, as in the
source. -/
def decodeTuple (t : List Char) (_pos : Nat) : Except Err (Nat × Nat × Nat × Option (Nat × Nat)) :=
  match t[0]? with
  | none => .error .indexError
  | some t0 =>
    match strIndex vow t0 with
    | none => .error .notInTable
    | some a =>
      match t[1]? with
      | none => .error .indexError
      | some t1 =>
        match strIndex con t1 with
        | none => .error .notInTable
        | some b =>
          match t[2]? with
          | none => .error .indexError
          | some t2 =>
            match strIndex vow t2 with
            | none => .error .notInTable
            | some c =>
              if 4 < t.length then
                match t[3]? with
                | none => .error .indexError
                | some t3 =>
                  match strIndex con t3 with
                  | none => .error .notInTable
                  | some d =>
                    match t[5]? with
                    | none => .error .indexError
                    | some t5 =>
                      match strIndex con t5 with
                      | none => .error .notInTable
                      | some e => .ok (a, b, c, some (d, e))
              else .ok (a, b, c, none)

/-- The decoder's `while pos < (l//6)*6` loop (source lines 87-94).
Returns the collected bytes, the checksum and the position at loop exit.
A 3-element tuple where a 5-element one is needed is Python's
IndexError on `t[3]`, raised after `_decode_3way` has run. -/
def decodeLoop (enc : List Char) (stop pos C : Nat) (out : List Nat) :
    Except Err (List Nat × Nat × Nat) :=
  if _h : pos < stop then
    match decodeTuple ((enc.drop pos).take 6) pos with
    | .error e => .error e
    | .ok (a, b, c, rest) =>
      match decode3way a b c pos C with
      | .error e => .error e
      | .ok b1 =>
        match rest with
        | none => .error .indexError
        | some (d, e) =>
          match decode2way d e (pos + 2) with
          | .error e' => .error e'
          | .ok b2 =>
            decodeLoop enc stop (pos + 6) ((C * 5 + b1 * 7 + b2) % 36) (out ++ [b1, b2])
  else .ok (out, C, pos)
termination_by stop - pos
decreasing_by omega

/-- The final 5-character tail group handling (source lines 96-102). -/
def decodeTail (enc : List Char) (pos C : Nat) (out : List Nat) :
    Except Err (List Nat) :=
  match decodeTuple ((enc.drop pos).take 6) pos with
  | .error e => .error e
  | .ok (a, b, c, _) =>
    if b = 16 then
      if a = C % 6 then
        if c = C / 6 then .ok out
        else .error (.corruptChar (pos + 2))
      else .error (.corruptChar pos)
    else
      match decode3way a b c pos C with
      | .error e => .error e
      | .ok b1 => .ok (out ++ [b1])

/-- `decode` from the source.  `encoded[0]` on the empty string is an
IndexError (before any framing assert); `encoded[-1]` is the last
character. -/
def decode (encoded : List Char) : Except Err (List Nat) :=
  match encoded[0]? with
  | none => .error .indexError
  | some c0 =>
    if c0 = 'x' then
      match encoded[encoded.length - 1]? with
      | none => .error .indexError
      | some cl =>
        if cl = 'x' then
          if encoded.length % 6 = 5 then
            match decodeLoop encoded (encoded.length / 6 * 6) 1 1 [] with
            | .error e => .error e
            | .ok (out, C, pos) => decodeTail encoded pos C out
          else .error .badLength
        else .error .badEnd
    else .error .badBegin

/-- Structural form of the encoder body: what `encodeFrom` emits for the
bytes not yet consumed, under the current checksum. -/
def encBody : List Nat → Nat → List Char
  | [], C => encEven C
  | [b], C => encOdd C b
  | b0 :: b1 :: rest, C =>
    (encOdd C b0 ++ encGroupTail b1) ++ encBody rest ((C * 5 + b0 * 7 + b1) % 36)

/-- The running checksum after consuming all full byte-pairs. -/
def chainC : List Nat → Nat → Nat
  | b0 :: b1 :: rest, C => chainC rest ((C * 5 + b0 * 7 + b1) % 36)
  | _, C => C

/-- The bytes consumed as full pairs. -/
def fullPairs : List Nat → List Nat
  | b0 :: b1 :: rest => b0 :: b1 :: fullPairs rest
  | _ => []

/-- The trailing unpaired byte, if any. -/
def tailRest : List Nat → List Nat
  | _ :: _ :: rest => tailRest rest
  | rest => rest

/-! ### Basic facts about the tables -/

lemma xDelim_eq : xDelim = 'x' := rfl

lemma vowD_mem {i : Nat} (h : i < 6) : vowD i ∈ vow := by
  interval_cases i <;> decide

lemma conD_mem {i : Nat} (h : i < 17) : conD i ∈ con := by
  interval_cases i <;> decide

lemma strIndex_vowD {i : Nat} (h : i < 6) : strIndex vow (vowD i) = some i := by
  interval_cases i <;> decide

lemma strIndex_conD {i : Nat} (h : i < 17) : strIndex con (conD i) = some i := by
  interval_cases i <;> decide

lemma strIndex_con_x : strIndex con 'x' = some 16 := by decide

lemma vowD_ne_y {i : Nat} (h1 : 1 ≤ i) (h2 : i ≤ 4) : vowD i ≠ 'y' := by
  interval_cases i <;> decide

/-! ### The indexed encoder loop equals its structural form -/

lemma encodeFrom_stop (s : List Nat) (rounds i C : Nat) (h : ¬ i < rounds) :
    encodeFrom s rounds i C = [] := by
  rw [encodeFrom]; simp [h]

lemma encodeFrom_eq_body (s : List Nat) :
    ∀ m i C, 1 + s.length / 2 - i = m → i ≤ s.length / 2 →
      encodeFrom s (1 + s.length / 2) i C = encBody (s.drop (2 * i)) C := by
  intro m
  induction m with
  | zero => intro i C hm hi; omega
  | succ m ih =>
    intro i C hm hi
    have hlt : i < 1 + s.length / 2 := by omega
    rw [encodeFrom]
    rw [dif_pos hlt]
    by_cases hfull : i + 1 < 1 + s.length / 2
    · have h2i1 : 2 * i + 1 < s.length := by omega
      have h2i : 2 * i < s.length := by omega
      rw [if_pos (Or.inl hfull), if_pos hfull, if_pos hfull]
      rw [List.drop_eq_getElem_cons h2i, List.drop_eq_getElem_cons (by simpa using h2i1)]
      simp only [encBody]
      rw [ih (i + 1) _ (by omega) (by omega)]
      rw [List.getD_eq_getElem _ _ h2i, List.getD_eq_getElem _ _ h2i1]
      have : 2 * (i + 1) = 2 * i + 1 + 1 := by omega
      rw [this]
    · have hi2 : i = s.length / 2 := by omega
      by_cases hodd : s.length % 2 = 1
      · have h2i : 2 * i < s.length := by omega
        rw [if_pos (Or.inr hodd), if_neg hfull, if_neg hfull]
        rw [encodeFrom_stop _ _ _ _ (by omega)]
        rw [List.drop_eq_getElem_cons h2i]
        have hlen : 2 * i + 1 = s.length := by omega
        rw [hlen, List.drop_length]
        simp only [encBody, List.append_nil]
        rw [List.getD_eq_getElem _ _ h2i]
      · have hlen : 2 * i = s.length := by omega
        rw [if_neg (by simp [hfull, hodd])]
        rw [encodeFrom_stop _ _ _ _ (by omega)]
        rw [hlen, List.drop_length]
        simp only [encBody, List.append_nil]

/-- `encode` in closed form: delimiter, structural body from checksum 1,
delimiter. -/
lemma encode_eq (s : List Nat) : encode s = 'x' :: encBody s 1 ++ ['x'] := by
  rw [encode, encodeFrom_eq_body s (1 + s.length / 2) 0 1 rfl (by omega)]
  simp [xDelim_eq]

/-! ### Structural facts about the body -/

/-- Two-at-a-time induction over byte lists. -/
lemma pairInduction {P : List Nat → Prop} (h0 : P []) (h1 : ∀ b, P [b])
    (h2 : ∀ b0 b1 r, P r → P (b0 :: b1 :: r)) : ∀ l, P l := by
  have key : ∀ n (l : List Nat), l.length ≤ n → P l := by
    intro n
    induction n with
    | zero =>
      intro l h
      match l with
      | [] => exact h0
    | succ n ih =>
      intro l h
      match l with
      | [] => exact h0
      | [b] => exact h1 b
      | b0 :: b1 :: r =>
        exact h2 b0 b1 r (ih r (by simp at h; omega))
  exact fun l => key l.length l (le_refl _)

lemma encBody_length (C : Nat) (s : List Nat) :
    (encBody s C).length = 6 * (s.length / 2) + 3 := by
  induction s using pairInduction generalizing C with
  | h0 => simp [encBody, encEven]
  | h1 b => simp [encBody, encOdd]
  | h2 b0 b1 r ih =>
    simp only [encBody, List.length_append, ih]
    simp [encOdd, encGroupTail]
    omega

lemma chainC_lt (s : List Nat) : ∀ C, C < 36 → chainC s C < 36 := by
  induction s using pairInduction with
  | h0 => intro C h; simpa [chainC] using h
  | h1 b => intro C h; simpa [chainC] using h
  | h2 b0 b1 r ih => intro C h; simp only [chainC]; exact ih _ (by omega)

lemma fullPairs_append_tailRest (s : List Nat) : fullPairs s ++ tailRest s = s := by
  induction s using pairInduction with
  | h0 => rfl
  | h1 b => rfl
  | h2 b0 b1 r ih => simp [fullPairs, tailRest, ih]

lemma tailRest_even (s : List Nat) (h : s.length % 2 = 0) : tailRest s = [] := by
  induction s using pairInduction with
  | h0 => rfl
  | h1 b => simp at h
  | h2 b0 b1 r ih =>
    simp only [tailRest]
    exact ih (by simp at h; omega)

lemma tailRest_odd (s : List Nat) (h : s.length % 2 = 1) :
    ∃ b, tailRest s = [b] ∧ b ∈ s := by
  induction s using pairInduction with
  | h0 => simp at h
  | h1 b => exact ⟨b, rfl, by simp⟩
  | h2 b0 b1 r ih =>
    obtain ⟨b, hb, hmem⟩ := ih (by simp at h; omega)
    exact ⟨b, hb, by simp [hmem]⟩

/-- Dropping all full-pair groups from the body leaves the tail group. -/
lemma encBody_drop (s : List Nat) : ∀ C,
    (encBody s C).drop (6 * (s.length / 2)) = encBody (tailRest s) (chainC s C) := by
  induction s using pairInduction with
  | h0 => intro C; simp [tailRest, chainC]
  | h1 b => intro C; simp [tailRest, chainC]
  | h2 b0 b1 r ih =>
    intro C
    simp only [encBody, tailRest, chainC]
    have hlen : ((encOdd C b0 ++ encGroupTail b1)).length = 6 := by
      simp [encOdd, encGroupTail]
    have harith : 6 * ((b0 :: b1 :: r).length / 2)
        = ((encOdd C b0 ++ encGroupTail b1)).length + 6 * (r.length / 2) := by
      simp only [hlen, List.length_cons]
      omega
    rw [harith, List.drop_append, ih]

/-! ### One-step equations for the decoder loop -/

lemma decodeLoop_stop (enc : List Char) (stop pos C : Nat) (out : List Nat)
    (h : ¬ pos < stop) : decodeLoop enc stop pos C out = .ok (out, C, pos) := by
  rw [decodeLoop]; simp [h]

lemma decodeLoop_step (enc : List Char) (stop pos C : Nat) (out : List Nat)
    (h : pos < stop) :
    decodeLoop enc stop pos C out =
      match decodeTuple ((enc.drop pos).take 6) pos with
      | .error e => .error e
      | .ok (a, b, c, rest) =>
        match decode3way a b c pos C with
        | .error e => .error e
        | .ok b1 =>
          match rest with
          | none => .error .indexError
          | some (d, e) =>
            match decode2way d e (pos + 2) with
            | .error e' => .error e'
            | .ok b2 =>
              decodeLoop enc stop (pos + 6) ((C * 5 + b1 * 7 + b2) % 36) (out ++ [b1, b2]) := by
  conv_lhs => rw [decodeLoop]
  rw [dif_pos h]

/-! ### Decoding the characters the encoder produced -/

lemma decodeTuple_group (C b0 b1 pos : Nat) :
    decodeTuple (encOdd C b0 ++ encGroupTail b1) pos
      = .ok ((b0 / 64 % 4 + C) % 6, b0 / 4 % 16, (b0 % 4 + C / 6) % 6,
          some (b1 / 16 % 16, b1 % 16)) := by
  simp [encOdd, encGroupTail, decodeTuple,
    strIndex_vowD (show (b0 / 64 % 4 + C) % 6 < 6 by omega),
    strIndex_conD (show b0 / 4 % 16 < 17 by omega),
    strIndex_vowD (show (b0 % 4 + C / 6) % 6 < 6 by omega),
    strIndex_conD (show b1 / 16 % 16 < 17 by omega),
    strIndex_conD (show b1 % 16 < 17 by omega)]

lemma decodeTuple_tailEven (C pos : Nat) (h : C < 36) :
    decodeTuple (encEven C ++ ['x']) pos = .ok (C % 6, 16, C / 6, none) := by
  simp [encEven, xDelim_eq, decodeTuple,
    strIndex_vowD (show C % 6 < 6 by omega),
    strIndex_vowD (show C / 6 < 6 by omega),
    strIndex_con_x]

lemma decodeTuple_tailOdd (C b pos : Nat) :
    decodeTuple (encOdd C b ++ ['x']) pos
      = .ok ((b / 64 % 4 + C) % 6, b / 4 % 16, (b % 4 + C / 6) % 6, none) := by
  simp [encOdd, decodeTuple,
    strIndex_vowD (show (b / 64 % 4 + C) % 6 < 6 by omega),
    strIndex_conD (show b / 4 % 16 < 17 by omega),
    strIndex_vowD (show (b % 4 + C / 6) % 6 < 6 by omega),
    strIndex_con_x]

lemma decode3way_enc (b C pos : Nat) (hb : b < 256) :
    decode3way ((b / 64 % 4 + C) % 6) (b / 4 % 16) ((b % 4 + C / 6) % 6) pos C
      = .ok b := by
  simp only [decode3way]
  have e1 : ((b / 64 % 4 + C) % 6 + 6 - C % 6) % 6 = b / 64 % 4 := by omega
  have e2 : ((b % 4 + C / 6) % 6 + 6 - C / 6 % 6) % 6 = b % 4 := by omega
  rw [e1, e2]
  rw [if_pos (show b / 64 % 4 < 4 by omega)]
  rw [if_pos (show b / 4 % 16 < 16 by omega)]
  rw [if_pos (show b % 4 < 4 by omega)]
  have : b / 64 % 4 * 64 + b / 4 % 16 * 4 + b % 4 = b := by omega
  rw [this]

lemma decode2way_enc (b pos : Nat) (hb : b < 256) :
    decode2way (b / 16 % 16) (b % 16) pos = .ok b := by
  simp only [decode2way]
  rw [if_pos (show b / 16 % 16 < 16 by omega), if_pos (show b % 16 < 16 by omega)]
  have : b / 16 % 16 * 16 + b % 16 = b := by omega
  rw [this]

/-- Running the decoder loop over the encoding of the full pairs of
`rest` collects exactly those bytes and mirrors the encoder's checksum. -/
lemma decodeLoop_encBody (rest : List Nat) : ∀ (enc : List Char) (pos C : Nat) (out : List Nat),
    (∀ b ∈ rest, b < 256) → C < 36 →
    enc.drop pos = encBody rest C ++ ['x'] →
    ∀ stop, stop ≤ pos + 6 * (rest.length / 2) → pos + 6 * (rest.length / 2) < stop + 6 →
    decodeLoop enc stop pos C out
      = .ok (out ++ fullPairs rest, chainC rest C, pos + 6 * (rest.length / 2)) := by
  induction rest using pairInduction with
  | h0 =>
    intro enc pos C out _ _ _ stop hs1 hs2
    simp only [List.length_nil] at hs1
    rw [decodeLoop_stop _ _ _ _ _ (by omega)]
    simp [fullPairs, chainC]
  | h1 b =>
    intro enc pos C out _ _ _ stop hs1 hs2
    simp only [List.length_singleton] at hs1
    rw [decodeLoop_stop _ _ _ _ _ (by omega)]
    simp [fullPairs, chainC]
  | h2 b0 b1 r ih =>
    intro enc pos C out hb hC hdrop stop hs1 hs2
    have hr2 : (b0 :: b1 :: r).length / 2 = r.length / 2 + 1 := by simp; omega
    have hpos : pos < stop := by rw [hr2] at hs2; omega
    have hglen : (encOdd C b0 ++ encGroupTail b1).length = 6 := by
      simp [encOdd, encGroupTail]
    have hslice : (enc.drop pos).take 6 = encOdd C b0 ++ encGroupTail b1 := by
      rw [hdrop]
      simp only [encBody, List.append_assoc]
      exact List.take_left' hglen
    have hdrop6 : enc.drop (pos + 6) = encBody r ((C * 5 + b0 * 7 + b1) % 36) ++ ['x'] := by
      rw [← List.drop_drop, hdrop]
      simp only [encBody, List.append_assoc]
      exact List.drop_left' hglen
    rw [decodeLoop_step _ _ _ _ _ hpos, hslice]
    simp only [decodeTuple_group, decode3way_enc b0 C pos (hb b0 (by simp)),
      decode2way_enc b1 (pos + 2) (hb b1 (by simp))]
    rw [ih enc (pos + 6) _ (out ++ [b0, b1])
      (fun b hmem => hb b (by simp [hmem])) (by omega) hdrop6 stop (by omega) (by omega)]
    simp only [fullPairs, chainC, List.append_assoc, List.cons_append, List.singleton_append,
      List.nil_append, hr2]
    have harith : pos + 6 + 6 * (r.length / 2) = pos + 6 * (r.length / 2 + 1) := by omega
    rw [harith]

/-! ### Decoding a well-framed string -/

lemma enc_head (body : List Char) : (('x' :: body) ++ ['x'])[0]? = some 'x' := by
  rw [List.getElem?_append_left (by simp)]
  exact List.getElem?_cons_zero

lemma enc_last (body : List Char) :
    (('x' :: body) ++ ['x'])[(('x' :: body) ++ ['x']).length - 1]? = some 'x' := by
  have h : (('x' :: body) ++ ['x']).length - 1 = ('x' :: body).length := by simp
  rw [h, List.getElem?_append_right (le_refl _)]
  simp

/-- On a string passing the three framing checks, `decode` is the loop
followed by the tail handling. -/
lemma decode_framed (enc : List Char) (k : Nat) (hlen : enc.length = 6 * k + 5)
    (h0 : enc[0]? = some 'x') (hl : enc[enc.length - 1]? = some 'x') :
    decode enc =
      match decodeLoop enc (6 * k) 1 1 [] with
      | .error e => .error e
      | .ok (out, C, pos) => decodeTail enc pos C out := by
  simp only [decode, h0, hl, if_true]
  rw [hlen]
  rw [if_pos (show (6 * k + 5) % 6 = 5 by omega)]
  rw [show (6 * k + 5) / 6 * 6 = 6 * k by omega]

/-- Round-trip: decoding an encoder output returns the original bytes. -/
lemma decode_encode (B : List Nat) (h : ∀ b ∈ B, b < 256) :
    decode (encode B) = .ok B := by
  rw [encode_eq]
  have hblen : (encBody B 1).length = 6 * (B.length / 2) + 3 := encBody_length 1 B
  have hlen : (('x' :: encBody B 1) ++ ['x']).length = 6 * (B.length / 2) + 5 := by
    simp [hblen]
  rw [decode_framed _ (B.length / 2) hlen (enc_head _) (enc_last _)]
  have hdrop1 : (('x' :: encBody B 1) ++ ['x']).drop 1 = encBody B 1 ++ ['x'] := by
    rw [List.drop_append_of_le_length (by simp)]
    simp
  rw [decodeLoop_encBody B _ 1 1 [] h (by omega) hdrop1 (6 * (B.length / 2))
    (by omega) (by omega)]
  simp only [List.nil_append]
  have hCf : chainC B 1 < 36 := chainC_lt B 1 (by omega)
  have hdropt : (('x' :: encBody B 1) ++ ['x']).drop (1 + 6 * (B.length / 2))
      = encBody (tailRest B) (chainC B 1) ++ ['x'] := by
    rw [show 1 + 6 * (B.length / 2) = 6 * (B.length / 2) + 1 by omega]
    rw [List.drop_append_of_le_length (by simp [hblen])]
    rw [show ('x' :: encBody B 1).drop (6 * (B.length / 2) + 1)
        = (encBody B 1).drop (6 * (B.length / 2)) from List.drop_succ_cons]
    rw [encBody_drop]
  by_cases hpar : B.length % 2 = 0
  · have htr : tailRest B = [] := tailRest_even B hpar
    have hfp : fullPairs B = B := by
      have := fullPairs_append_tailRest B
      rwa [htr, List.append_nil] at this
    simp only [decodeTail, hdropt, htr]
    rw [show ((encBody ([] : List Nat) (chainC B 1) ++ ['x']).take 6)
        = encBody ([] : List Nat) (chainC B 1) ++ ['x'] from
      List.take_of_length_le (by simp [encBody, encEven])]
    simp only [encBody]
    rw [decodeTuple_tailEven _ _ hCf]
    simp only [hfp, if_true]
  · have hodd : B.length % 2 = 1 := by omega
    obtain ⟨b, htr, hmem⟩ := tailRest_odd B hodd
    have hfp : fullPairs B ++ [b] = B := by
      have := fullPairs_append_tailRest B
      rwa [htr] at this
    simp only [decodeTail, hdropt, htr]
    rw [show ((encBody [b] (chainC B 1) ++ ['x']).take 6)
        = encBody [b] (chainC B 1) ++ ['x'] from
      List.take_of_length_le (by simp [encBody, encOdd])]
    simp only [encBody]
    rw [decodeTuple_tailOdd]
    simp only [if_neg (show ¬ b / 4 % 16 = 16 by omega)]
    rw [decode3way_enc b (chainC B 1) _ (h b hmem)]
    simp only [hfp]

/-! ### The checked encoder never fails -/

lemma vow_getElem? {j : Nat} (hj : j < 6) : vow[j]? = some (vowD j) := by
  have hj' : j < vow.length := by simpa [vow] using hj
  rw [List.getElem?_eq_getElem hj', vowD, List.getD_eq_getElem _ _ hj']

lemma con_getElem? {j : Nat} (hj : j < 17) : con[j]? = some (conD j) := by
  have hj' : j < con.length := by simpa [con] using hj
  rw [List.getElem?_eq_getElem hj', conD, List.getD_eq_getElem _ _ hj']

lemma list_getElem?_getD {s : List Nat} {j : Nat} (hj : j < s.length) :
    s[j]? = some (s.getD j 0) := by
  rw [List.getElem?_eq_getElem hj, List.getD_eq_getElem _ _ hj]

lemma encodeFrom?_stop (s : List Nat) (rounds i C : Nat) (h : ¬ i < rounds) :
    encodeFrom? s rounds i C = some [] := by
  rw [encodeFrom?]; simp [h]

lemma encodeFrom?_eq (s : List Nat) :
    ∀ m i C, 1 + s.length / 2 - i = m → C < 36 →
      encodeFrom? s (1 + s.length / 2) i C = some (encodeFrom s (1 + s.length / 2) i C) := by
  intro m
  induction m with
  | zero =>
    intro i C hm _
    rw [encodeFrom?_stop _ _ _ _ (by omega), encodeFrom_stop _ _ _ _ (by omega)]
  | succ m ih =>
    intro i C hm hC
    have hlt : i < 1 + s.length / 2 := by omega
    rw [encodeFrom?]
    conv_rhs => rw [encodeFrom]
    rw [dif_pos hlt, dif_pos hlt]
    by_cases hcond : i + 1 < 1 + s.length / 2 ∨ s.length % 2 = 1
    · rw [if_pos hcond, if_pos hcond]
      have h2i : 2 * i < s.length := by
        rcases hcond with hfull | hodd
        · omega
        · omega
      by_cases hfull : i + 1 < 1 + s.length / 2
      · have h2i1 : 2 * i + 1 < s.length := by omega
        simp only [Option.bind_eq_bind, Option.some_bind, dif_pos hfull, if_pos hfull,
          list_getElem?_getD h2i, list_getElem?_getD h2i1,
          vow_getElem? (show (s.getD (2 * i) 0 / 64 % 4 + C) % 6 < 6 by omega),
          con_getElem? (show s.getD (2 * i) 0 / 4 % 16 < 17 by omega),
          vow_getElem? (show (s.getD (2 * i) 0 % 4 + C / 6) % 6 < 6 by omega),
          con_getElem? (show s.getD (2 * i + 1) 0 / 16 % 16 < 17 by omega),
          con_getElem? (show s.getD (2 * i + 1) 0 % 16 < 17 by omega),
          ih (i + 1) ((C * 5 + s.getD (2 * i) 0 * 7 + s.getD (2 * i + 1) 0) % 36)
            (by omega) (by omega)]
        simp [encOdd, encGroupTail]
      · simp only [Option.bind_eq_bind, Option.some_bind, dif_neg hfull, if_neg hfull,
          list_getElem?_getD h2i,
          vow_getElem? (show (s.getD (2 * i) 0 / 64 % 4 + C) % 6 < 6 by omega),
          con_getElem? (show s.getD (2 * i) 0 / 4 % 16 < 17 by omega),
          vow_getElem? (show (s.getD (2 * i) 0 % 4 + C / 6) % 6 < 6 by omega),
          ih (i + 1) C (by omega) hC]
        simp [encOdd]
    · rw [if_neg hcond, if_neg hcond]
      simp only [Option.bind_eq_bind, Option.some_bind,
        vow_getElem? (show C % 6 < 6 by omega),
        vow_getElem? (show C / 6 < 6 by omega)]
      rw [ih (i + 1) C (by omega) hC]
      simp [encEven]

/-! ### Classifying the decoder's failures -/

lemma decodeTuple_err {t : List Char} {pos : Nat} {e : Err}
    (h : decodeTuple t pos = .error e) : e = .indexError ∨ e = .notInTable := by
  unfold decodeTuple at h
  repeat' split at h
  all_goals simp_all

lemma decode3way_err {a b c pos C : Nat} {e : Err}
    (h : decode3way a b c pos C = .error e) :
    e = .corruptChar pos ∨ e = .corruptChar (pos + 1) ∨ e = .corruptChar (pos + 2) := by
  simp only [decode3way] at h
  split_ifs at h <;> simp_all

lemma decode2way_err {a b pos : Nat} {e : Err}
    (h : decode2way a b pos = .error e) :
    e = .corruptChar pos ∨ e = .corruptChar (pos + 1) := by
  simp only [decode2way] at h
  split_ifs at h <;> simp_all

lemma decodeTail_err {enc : List Char} {pos C : Nat} {out : List Nat} {p : Nat}
    (h : decodeTail enc pos C out = .error (.corruptChar p)) : p ≤ pos + 2 := by
  unfold decodeTail at h
  cases htup : decodeTuple ((enc.drop pos).take 6) pos with
  | error e =>
    rw [htup] at h
    simp only [Except.error.injEq] at h
    subst h
    rcases decodeTuple_err htup with h' | h' <;> exact absurd h' (by simp)
  | ok t =>
    obtain ⟨a, b, c, rest⟩ := t
    rw [htup] at h
    by_cases hb : b = 16
    · simp only [hb, if_true] at h
      split_ifs at h <;> simp_all
    · simp only [hb, if_false, if_neg hb] at h
      cases h3 : decode3way a b c pos C with
      | error e =>
        rw [h3] at h
        simp only [Except.error.injEq] at h
        subst h
        rcases decode3way_err h3 with h' | h' | h' <;>
          (simp only [Err.corruptChar.injEq] at h'; omega)
      | ok b1 =>
        rw [h3] at h
        simp at h

/-- An error position coming out of the loop lies at least two short of
`stop`. -/
lemma decodeLoop_err_pos (enc : List Char) :
    ∀ n stop pos C out p, stop - pos = n → pos % 6 = 1 → stop % 6 = 0 →
      decodeLoop enc stop pos C out = .error (.corruptChar p) → p + 2 ≤ stop := by
  intro n
  induction n using Nat.strong_induction_on with
  | _ n ih =>
    intro stop pos C out p hn hpos hstop h
    by_cases hps : pos < stop
    · rw [decodeLoop_step _ _ _ _ _ hps] at h
      cases htup : decodeTuple ((enc.drop pos).take 6) pos with
      | error e =>
        rw [htup] at h
        simp only [Except.error.injEq] at h
        subst h
        rcases decodeTuple_err htup with h' | h' <;> exact absurd h' (by simp)
      | ok t =>
        obtain ⟨a, b, c, rest⟩ := t
        rw [htup] at h
        simp only at h
        cases h3 : decode3way a b c pos C with
        | error e =>
          rw [h3] at h
          simp only [Except.error.injEq] at h
          subst h
          rcases decode3way_err h3 with h' | h' | h' <;>
            (simp only [Err.corruptChar.injEq] at h'; omega)
        | ok b1 =>
          rw [h3] at h
          simp only at h
          cases rest with
          | none => simp at h
          | some de =>
            obtain ⟨d, e⟩ := de
            simp only at h
            cases h2 : decode2way d e (pos + 2) with
            | error e' =>
              rw [h2] at h
              simp only [Except.error.injEq] at h
              subst h
              rcases decode2way_err h2 with h' | h' <;>
                (simp only [Err.corruptChar.injEq] at h'; omega)
            | ok b2 =>
              rw [h2] at h
              simp only at h
              exact ih (stop - (pos + 6)) (by omega) stop (pos + 6) _ _ p rfl
                (by omega) hstop h
    · rw [decodeLoop_stop _ _ _ _ _ hps] at h
      cases h

/-- When the loop returns normally it has walked to position `stop + 1`. -/
lemma decodeLoop_ok_pos (enc : List Char) :
    ∀ n stop pos C out res, stop - pos = n → pos % 6 = 1 → stop % 6 = 0 →
      pos ≤ stop + 1 →
      decodeLoop enc stop pos C out = .ok res → res.2.2 = stop + 1 := by
  intro n
  induction n using Nat.strong_induction_on with
  | _ n ih =>
    intro stop pos C out res hn hpos hstop hle h
    by_cases hps : pos < stop
    · rw [decodeLoop_step _ _ _ _ _ hps] at h
      cases htup : decodeTuple ((enc.drop pos).take 6) pos with
      | error e => rw [htup] at h; simp at h
      | ok t =>
        obtain ⟨a, b, c, rest⟩ := t
        rw [htup] at h
        simp only at h
        cases h3 : decode3way a b c pos C with
        | error e => rw [h3] at h; simp at h
        | ok b1 =>
          rw [h3] at h
          simp only at h
          cases rest with
          | none => simp at h
          | some de =>
            obtain ⟨d, e⟩ := de
            simp only at h
            cases h2 : decode2way d e (pos + 2) with
            | error e' => rw [h2] at h; simp at h
            | ok b2 =>
              rw [h2] at h
              simp only at h
              exact ih (stop - (pos + 6)) (by omega) stop (pos + 6) _ _ res rfl
                (by omega) hstop (by omega) h
    · rw [decodeLoop_stop _ _ _ _ _ hps] at h
      simp only [Except.ok.injEq] at h
      subst h
      simp
      omega

/-- A `"Corrupt char at %d"` failure of `decode` always reports an offset
inside the input string. -/
lemma decode_err_corrupt_lt {s : List Char} {p : Nat}
    (h : decode s = .error (.corruptChar p)) : p < s.length := by
  unfold decode at h
  cases h0 : s[0]? with
  | none => rw [h0] at h; simp at h
  | some c0 =>
    rw [h0] at h
    simp only at h
    by_cases hc0 : c0 = 'x'
    case neg => rw [if_neg hc0] at h; simp at h
    case pos =>
      rw [if_pos hc0] at h
      cases hl : s[s.length - 1]? with
      | none => rw [hl] at h; simp at h
      | some cl =>
        rw [hl] at h
        simp only at h
        by_cases hcl : cl = 'x'
        case neg => rw [if_neg hcl] at h; simp at h
        case pos =>
          rw [if_pos hcl] at h
          by_cases hmod : s.length % 6 = 5
          case neg => rw [if_neg hmod] at h; simp at h
          case pos =>
            rw [if_pos hmod] at h
            cases hloop : decodeLoop s (s.length / 6 * 6) 1 1 [] with
            | error e =>
              rw [hloop] at h
              simp only [Except.error.injEq] at h
              subst h
              have := decodeLoop_err_pos s (s.length / 6 * 6 - 1) (s.length / 6 * 6)
                1 1 [] p rfl (by omega) (by omega) hloop
              omega
            | ok res =>
              obtain ⟨out, C, pos'⟩ := res
              rw [hloop] at h
              simp only at h
              have hpos' := decodeLoop_ok_pos s _ (s.length / 6 * 6) 1 1 []
                (out, C, pos') rfl (by omega) (by omega) (by omega) hloop
              simp only at hpos'
              have := decodeTail_err h
              omega

/-! ### The separator slots are never read -/

lemma decodeTuple_congr {t1 t2 : List Char} (pos : Nat) (hl : t1.length = t2.length)
    (h0 : t1[0]? = t2[0]?) (h1 : t1[1]? = t2[1]?) (h2 : t1[2]? = t2[2]?)
    (h3 : t1[3]? = t2[3]?) (h5 : t1[5]? = t2[5]?) :
    decodeTuple t1 pos = decodeTuple t2 pos := by
  unfold decodeTuple
  rw [h0, h1, h2, h3, h5, hl]

lemma slice_getElem? (s : List Char) (pos j : Nat) (hj : j < 6) :
    ((s.drop pos).take 6)[j]? = s[pos + j]? := by
  rw [List.getElem?_take_of_lt hj, List.getElem?_drop]

lemma slice_congr {s1 s2 : List Char} (pos : Nat) (hlen : s1.length = s2.length)
    (hagree : ∀ i, i % 6 ≠ 5 → s1[i]? = s2[i]?) (hpos : pos % 6 = 1) :
    decodeTuple ((s1.drop pos).take 6) pos = decodeTuple ((s2.drop pos).take 6) pos := by
  refine decodeTuple_congr pos (by simp [hlen]) ?_ ?_ ?_ ?_ ?_ <;>
    rw [slice_getElem? _ _ _ (by omega), slice_getElem? _ _ _ (by omega)]
  · exact hagree _ (by omega)
  · exact hagree _ (by omega)
  · exact hagree _ (by omega)
  · exact hagree _ (by omega)
  · exact hagree _ (by omega)

lemma decodeTail_congr {s1 s2 : List Char} (pos C : Nat) (out : List Nat)
    (hlen : s1.length = s2.length)
    (hagree : ∀ i, i % 6 ≠ 5 → s1[i]? = s2[i]?) (hpos : pos % 6 = 1) :
    decodeTail s1 pos C out = decodeTail s2 pos C out := by
  unfold decodeTail
  rw [slice_congr pos hlen hagree hpos]

lemma decodeLoop_congr {s1 s2 : List Char} (hlen : s1.length = s2.length)
    (hagree : ∀ i, i % 6 ≠ 5 → s1[i]? = s2[i]?) :
    ∀ n stop pos C out, stop - pos = n → pos % 6 = 1 →
      decodeLoop s1 stop pos C out = decodeLoop s2 stop pos C out := by
  intro n
  induction n using Nat.strong_induction_on with
  | _ n ih =>
    intro stop pos C out hn hpos
    by_cases hps : pos < stop
    · rw [decodeLoop_step _ _ _ _ _ hps, decodeLoop_step _ _ _ _ _ hps,
        slice_congr pos hlen hagree hpos]
      cases htup : decodeTuple ((s2.drop pos).take 6) pos with
      | error e => rfl
      | ok t =>
        obtain ⟨a, b, c, rest⟩ := t
        simp only [htup]
        cases h3 : decode3way a b c pos C with
        | error e => simp only [h3]
        | ok b1 =>
          simp only [h3]
          cases rest with
          | none => rfl
          | some de =>
            obtain ⟨d, e⟩ := de
            cases h2 : decode2way d e (pos + 2) with
            | error e' => simp only [h2]
            | ok b2 =>
              simp only [h2]
              exact ih (stop - (pos + 6)) (by omega) stop (pos + 6) _ _ rfl (by omega)
    · rw [decodeLoop_stop _ _ _ _ _ hps, decodeLoop_stop _ _ _ _ _ hps]

/-- Two strings of the same valid length that agree away from the
separator slots (positions congruent to 5 mod 6) decode identically. -/
lemma decode_congr_sep {s1 s2 : List Char} (hlen : s1.length = s2.length)
    (hval : s1.length % 6 = 5)
    (hagree : ∀ i, i < s1.length → i % 6 ≠ 5 → s1[i]? = s2[i]?) :
    decode s1 = decode s2 := by
  have hagree' : ∀ i, i % 6 ≠ 5 → s1[i]? = s2[i]? := by
    intro i hi
    by_cases hil : i < s1.length
    · exact hagree i hil hi
    · rw [List.getElem?_eq_none (by omega), List.getElem?_eq_none (by omega)]
  have h0 : s1[0]? = s2[0]? := hagree' 0 (by omega)
  have hlast : s1[s2.length - 1]? = s2[s2.length - 1]? := by
    refine hagree' _ ?_
    omega
  unfold decode
  rw [hlen, h0, hlast]
  have hloop : decodeLoop s1 (s2.length / 6 * 6) 1 1 []
      = decodeLoop s2 (s2.length / 6 * 6) 1 1 [] :=
    decodeLoop_congr hlen hagree' _ _ 1 1 [] rfl (by omega)
  rw [hloop]
  cases h00 : s2[0]? with
  | none => rfl
  | some c0 =>
    simp only [h00]
    by_cases hc0 : c0 = 'x'
    case neg => simp only [if_neg hc0]
    case pos =>
      simp only [if_pos hc0]
      cases hll : s2[s2.length - 1]? with
      | none => rfl
      | some cl =>
        simp only [hll]
        by_cases hcl : cl = 'x'
        case neg => simp only [if_neg hcl]
        case pos =>
          simp only [if_pos hcl]
          by_cases hmod : s2.length % 6 = 5
          case neg => simp only [if_neg hmod]
          case pos =>
            simp only [if_pos hmod]
            cases hres : decodeLoop s2 (s2.length / 6 * 6) 1 1 [] with
            | error e => simp only [hres]
            | ok res =>
              obtain ⟨out, C, pos'⟩ := res
              simp only [hres]
              have hpos' := decodeLoop_ok_pos s2 _ (s2.length / 6 * 6) 1 1 []
                (out, C, pos') rfl (by omega) (by omega) (by omega) hres
              simp only at hpos'
              exact decodeTail_congr pos' C out hlen hagree' (by omega)

/-! ### Detectable substitutions -/

instance {ε α : Type} [DecidableEq ε] [DecidableEq α] : DecidableEq (Except ε α) :=
  fun x y =>
    match x, y with
    | .ok a, .ok b =>
      if h : a = b then .isTrue (by rw [h]) else .isFalse (fun hc => h (Except.ok.inj hc))
    | .error a, .error b =>
      if h : a = b then .isTrue (by rw [h]) else .isFalse (fun hc => h (Except.error.inj hc))
    | .ok _, .error _ => .isFalse (fun hc => Except.noConfusion hc)
    | .error _, .ok _ => .isFalse (fun hc => Except.noConfusion hc)

lemma strIndex_vow_y : strIndex vow 'y' = some 5 := by decide

lemma decode3way_five (b c pos C : Nat) (hC : C % 6 = 1) :
    decode3way 5 b c pos C = .error (.corruptChar pos) := by
  simp only [decode3way, hC]
  rw [if_neg (by norm_num)]

lemma decodeLoop_err3 {enc : List Char} {stop pos C : Nat} {out : List Nat}
    {a b c : Nat} {rest : Option (Nat × Nat)} {e : Err} (h : pos < stop)
    (ht : decodeTuple ((enc.drop pos).take 6) pos = .ok (a, b, c, rest))
    (h3 : decode3way a b c pos C = .error e) :
    decodeLoop enc stop pos C out = .error e := by
  rw [decodeLoop_step _ _ _ _ _ h]
  simp only [ht, h3]

lemma decodeTail_ok_tuple {enc : List Char} {pos C : Nat} {out : List Nat}
    {a b c : Nat} {rest : Option (Nat × Nat)}
    (ht : decodeTuple ((enc.drop pos).take 6) pos = .ok (a, b, c, rest)) :
    decodeTail enc pos C out =
      if b = 16 then
        if a = C % 6 then
          if c = C / 6 then .ok out else .error (.corruptChar (pos + 2))
        else .error (.corruptChar pos)
      else
        match decode3way a b c pos C with
        | .error e => .error e
        | .ok b1 => .ok (out ++ [b1]) := by
  unfold decodeTail
  rw [ht]

lemma decode_framed_err {enc : List Char} {k : Nat} {e : Err}
    (hlen : enc.length = 6 * k + 5)
    (h0 : enc[0]? = some 'x') (hl : enc[enc.length - 1]? = some 'x')
    (hloop : decodeLoop enc (6 * k) 1 1 [] = .error e) :
    decode enc = .error e := by
  rw [decode_framed enc k hlen h0 hl, hloop]

lemma decode_framed_ok {enc : List Char} {k : Nat} {out : List Nat} {C pos : Nat}
    (hlen : enc.length = 6 * k + 5)
    (h0 : enc[0]? = some 'x') (hl : enc[enc.length - 1]? = some 'x')
    (hloop : decodeLoop enc (6 * k) 1 1 [] = .ok (out, C, pos)) :
    decode enc = decodeTail enc pos C out := by
  rw [decode_framed enc k hlen h0 hl, hloop]

/-- The character of `encode B` at position 1 is never the vowel `'y'`. -/
lemma encode_get1_ne_y (B : List Nat) : (encode B).getD 1 ' ' ≠ 'y' := by
  rw [encode_eq]
  have hlen : 1 < ('x' :: encBody B 1).length := by simp [encBody_length]
  rw [List.getD_eq_getElem?_getD, List.getElem?_append_left hlen, List.getElem?_cons_succ]
  rcases B with _ | ⟨b0, _ | ⟨b1, r⟩⟩
  · decide
  · simp only [encBody, encOdd, List.getElem?_cons_zero, Option.getD_some]
    exact vowD_ne_y (by omega) (by omega)
  · simp only [encBody, encOdd, List.cons_append, List.getElem?_cons_zero, Option.getD_some]
    exact vowD_ne_y (by omega) (by omega)

lemma encode_set1 (B : List Nat) :
    (encode B).set 1 'y' = ('x' :: (encBody B 1).set 0 'y') ++ ['x'] := by
  rw [encode_eq]
  have h1 : (('x' :: encBody B 1) ++ ['x']).set 1 'y'
      = ('x' :: encBody B 1).set 1 'y' ++ ['x'] :=
    List.set_append_left _ _ (by simp [encBody_length])
  rw [h1]
  rfl

/-- Putting `'y'` at position 1 of any encoder output makes `decode` fail
reporting position 1. -/
lemma decode_encode_set1 (B : List Nat) :
    decode ((encode B).set 1 'y') = .error (.corruptChar 1) := by
  rw [encode_set1]
  have hblen : ((encBody B 1).set 0 'y').length = 6 * (B.length / 2) + 3 := by
    simp [encBody_length]
  have hlen : (('x' :: (encBody B 1).set 0 'y') ++ ['x']).length
      = 6 * (B.length / 2) + 5 := by simp [hblen]
  have hdrop1 : (('x' :: (encBody B 1).set 0 'y') ++ ['x']).drop 1
      = (encBody B 1).set 0 'y' ++ ['x'] := by
    rw [List.drop_append_of_le_length (by simp)]
    simp
  rcases B with _ | ⟨b0, _ | ⟨b1, r⟩⟩
  · rw [decode_framed_ok hlen (enc_head _) (enc_last _)
      (decodeLoop_stop _ _ _ _ _ (by simp))]
    decide
  · have hslice : (((('x' :: (encBody [b0] 1).set 0 'y') ++ ['x']).drop 1).take 6)
        = ['y', conD (b0 / 4 % 16), vowD ((b0 % 4 + 1 / 6) % 6), 'x'] := by
      rw [hdrop1]
      rw [List.take_of_length_le (by simp [encBody, encOdd])]
      simp [encBody, encOdd]
    have htup : decodeTuple ((((('x' :: (encBody [b0] 1).set 0 'y') ++ ['x']).drop 1).take 6)) 1
        = .ok (5, b0 / 4 % 16, (b0 % 4 + 1 / 6) % 6, none) := by
      rw [hslice]
      simp [decodeTuple, strIndex_vow_y,
        strIndex_conD (show b0 / 4 % 16 < 17 by omega),
        strIndex_vowD (show (b0 % 4 + 1 / 6) % 6 < 6 by omega),
        strIndex_vowD (show b0 % 4 % 6 < 6 by omega),
        strIndex_con_x]
    rw [decode_framed_ok hlen (enc_head _) (enc_last _)
      (decodeLoop_stop _ _ _ _ _ (by simp))]
    rw [decodeTail_ok_tuple htup]
    rw [if_neg (show ¬ b0 / 4 % 16 = 16 by omega)]
    rw [decode3way_five _ _ 1 1 (by norm_num)]
  · have hpos : 1 < 6 * ((b0 :: b1 :: r).length / 2) := by simp; omega
    have hsliceG : (((('x' :: (encBody (b0 :: b1 :: r) 1).set 0 'y') ++ ['x']).drop 1).take 6)
        = (encOdd 1 b0).set 0 'y' ++ encGroupTail b1 := by
      rw [hdrop1]
      simp only [encBody]
      rw [List.set_append_left _ _ (by simp [encOdd, encGroupTail]),
        List.set_append_left _ _ (by simp [encOdd])]
      rw [List.append_assoc]
      exact List.take_left' (by simp [encOdd, encGroupTail])
    have htup : decodeTuple ((((('x' :: (encBody (b0 :: b1 :: r) 1).set 0 'y') ++ ['x']).drop 1).take 6)) 1
        = .ok (5, b0 / 4 % 16, (b0 % 4 + 1 / 6) % 6, some (b1 / 16 % 16, b1 % 16)) := by
      rw [hsliceG]
      simp [encOdd, encGroupTail, decodeTuple, strIndex_vow_y,
        strIndex_conD (show b0 / 4 % 16 < 17 by omega),
        strIndex_vowD (show (b0 % 4 + 1 / 6) % 6 < 6 by omega),
        strIndex_vowD (show b0 % 4 % 6 < 6 by omega),
        strIndex_conD (show b1 / 16 % 16 < 17 by omega),
        strIndex_conD (show b1 % 16 < 17 by omega)]
    exact decode_framed_err hlen (enc_head _) (enc_last _)
      (decodeLoop_err3 hpos htup (decode3way_five _ _ 1 1 (by norm_num)))

/-! ### Shape of the encoder output -/

lemma getElem?_some_lt {α : Type} {l : List α} {n : Nat} {a : α}
    (h : l[n]? = some a) : n < l.length := by
  by_contra hn
  rw [List.getElem?_eq_none (by omega)] at h
  cases h

lemma encBody_shape (s : List Nat) : ∀ C q c, C < 36 → (encBody s C)[q]? = some c →
    ((q % 6 = 0 ∨ q % 6 = 2) → c ∈ vow)
      ∧ ((q % 6 = 1 ∨ q % 6 = 3 ∨ q % 6 = 5) → c ∈ con)
      ∧ (q % 6 = 4 → c = '-') := by
  induction s using pairInduction with
  | h0 =>
    intro C q c hC hq
    have hql : q < 3 := by simpa [encBody, encEven] using getElem?_some_lt hq
    interval_cases q <;>
      simp only [encBody, encEven, List.getElem?_cons_zero, List.getElem?_cons_succ,
        Option.some.injEq] at hq <;> subst hq
    · exact ⟨fun _ => vowD_mem (by omega), fun h' => by omega, fun h' => by omega⟩
    · exact ⟨fun h' => by omega, fun _ => by rw [xDelim_eq]; decide, fun h' => by omega⟩
    · exact ⟨fun _ => vowD_mem (by omega), fun h' => by omega, fun h' => by omega⟩
  | h1 b =>
    intro C q c hC hq
    have hql : q < 3 := by simpa [encBody, encOdd] using getElem?_some_lt hq
    interval_cases q <;>
      simp only [encBody, encOdd, List.getElem?_cons_zero, List.getElem?_cons_succ,
        Option.some.injEq] at hq <;> subst hq
    · exact ⟨fun _ => vowD_mem (by omega), fun h' => by omega, fun h' => by omega⟩
    · exact ⟨fun h' => by omega, fun _ => conD_mem (by omega), fun h' => by omega⟩
    · exact ⟨fun _ => vowD_mem (by omega), fun h' => by omega, fun h' => by omega⟩
  | h2 b0 b1 r ih =>
    intro C q c hC hq
    simp only [encBody] at hq
    by_cases hq6 : q < 6
    · rw [List.getElem?_append_left (by simp [encOdd, encGroupTail]; omega)] at hq
      interval_cases q <;>
        simp only [encOdd, encGroupTail, List.cons_append, List.nil_append,
          List.getElem?_cons_zero, List.getElem?_cons_succ, Option.some.injEq] at hq <;>
        subst hq
      · exact ⟨fun _ => vowD_mem (by omega), fun h' => by omega, fun h' => by omega⟩
      · exact ⟨fun h' => by omega, fun _ => conD_mem (by omega), fun h' => by omega⟩
      · exact ⟨fun _ => vowD_mem (by omega), fun h' => by omega, fun h' => by omega⟩
      · exact ⟨fun h' => by omega, fun _ => conD_mem (by omega), fun h' => by omega⟩
      · exact ⟨fun h' => by omega, fun h' => by omega, fun _ => rfl⟩
      · exact ⟨fun h' => by omega, fun _ => conD_mem (by omega), fun h' => by omega⟩
    · rw [List.getElem?_append_right (by simp [encOdd, encGroupTail]; omega)] at hq
      have hlen6 : (encOdd C b0 ++ encGroupTail b1).length = 6 := by
        simp [encOdd, encGroupTail]
      rw [hlen6] at hq
      obtain ⟨ih1, ih2, ih3⟩ := ih ((C * 5 + b0 * 7 + b1) % 36) (q - 6) c (by omega) hq
      exact ⟨fun h' => ih1 (by omega), fun h' => ih2 (by omega), fun h' => ih3 (by omega)⟩

lemma encode_shape_aux (B : List Nat) (p : Nat) (c : Char)
    (h : (encode B)[p]? = some c) :
    (p % 6 = 5 → c = '-') ∧ ((p % 6 = 1 ∨ p % 6 = 3) → c ∈ vow)
      ∧ ((p % 6 = 0 ∨ p % 6 = 2 ∨ p % 6 = 4) → c ∈ con) := by
  rw [encode_eq] at h
  have hblen := encBody_length 1 B
  have hptot : p < 6 * (B.length / 2) + 5 := by
    have := getElem?_some_lt h
    simpa [hblen] using this
  rcases p with _ | q
  · rw [enc_head] at h
    simp only [Option.some.injEq] at h
    subst h
    exact ⟨fun h' => by omega, fun h' => by omega, fun _ => by decide⟩
  · by_cases hqb : q < (encBody B 1).length
    · rw [List.getElem?_append_left (by simp; omega), List.getElem?_cons_succ] at h
      obtain ⟨s1, s2, s3⟩ := encBody_shape B 1 q c (by omega) h
      exact ⟨fun h' => s3 (by omega), fun h' => s1 (by omega), fun h' => s2 (by omega)⟩
    · have hq : q = (encBody B 1).length := by
        simp only [hblen] at hqb ⊢
        omega
      rw [List.getElem?_append_right (by simp; omega)] at h
      rw [show q + 1 - ('x' :: encBody B 1).length = 0 by simp [hq]] at h
      simp only [List.getElem?_cons_zero, Option.some.injEq] at h
      subst h
      refine ⟨fun h' => ?_, fun h' => ?_, fun _ => by decide⟩
      · rw [hq, hblen] at h'
        omega
      · rcases h' with h' | h' <;> (rw [hq, hblen] at h'; omega)

/-! ### Concrete decodes used by counterexamples and witnesses -/

lemma decode_xzxax : decode ['x', 'z', 'x', 'a', 'x'] = .error .notInTable := by
  rw [decode_framed_ok (k := 0) (by decide) (by decide) (by decide)
    (decodeLoop_stop _ _ _ _ _ (by norm_num))]
  decide

lemma decode_xyxax : decode ['x', 'y', 'x', 'a', 'x'] = .error (.corruptChar 1) := by
  rw [decode_framed_ok (k := 0) (by decide) (by decide) (by decide)
    (decodeLoop_stop _ _ _ _ _ (by norm_num))]
  decide

lemma decode_sep_q : decode ['x', 'e', 'b', 'a', 'b', 'q', 'b', 'y', 'x', 'a', 'x']
    = .ok [0, 0] := by
  have hloop : decodeLoop ['x', 'e', 'b', 'a', 'b', 'q', 'b', 'y', 'x', 'a', 'x']
      (6 * 1) 1 1 [] = .ok ([0, 0], 5, 7) := by
    rw [decodeLoop_step _ _ _ _ _ (by norm_num)]
    simp only [show decodeTuple (((['x', 'e', 'b', 'a', 'b', 'q', 'b', 'y', 'x', 'a', 'x'] :
        List Char).drop 1).take 6) 1 = .ok (1, 0, 0, some (0, 0)) from by decide,
      show decode3way 1 0 0 1 1 = .ok 0 from by decide,
      show decode2way 0 0 (1 + 2) = .ok 0 from by decide,
      show decode2way 0 0 3 = .ok 0 from by decide]
    exact (decodeLoop_stop _ _ _ _ _ (by norm_num)).trans (by decide)
  rw [decode_framed_ok (k := 1) (by decide) (by decide) (by decide) hloop]
  decide

lemma decode_enc00 : decode ['x', 'e', 'b', 'a', 'b', '-', 'b', 'y', 'x', 'a', 'x']
    = .ok [0, 0] := by
  have hloop : decodeLoop ['x', 'e', 'b', 'a', 'b', '-', 'b', 'y', 'x', 'a', 'x']
      (6 * 1) 1 1 [] = .ok ([0, 0], 5, 7) := by
    rw [decodeLoop_step _ _ _ _ _ (by norm_num)]
    simp only [show decodeTuple (((['x', 'e', 'b', 'a', 'b', '-', 'b', 'y', 'x', 'a', 'x'] :
        List Char).drop 1).take 6) 1 = .ok (1, 0, 0, some (0, 0)) from by decide,
      show decode3way 1 0 0 1 1 = .ok 0 from by decide,
      show decode2way 0 0 (1 + 2) = .ok 0 from by decide,
      show decode2way 0 0 3 = .ok 0 from by decide]
    exact (decodeLoop_stop _ _ _ _ _ (by norm_num)).trans (by decide)
  rw [decode_framed_ok (k := 1) (by decide) (by decide) (by decide) hloop]
  decide

lemma decode_q_at1 : decode ['x', 'q', 'b', 'a', 'b', '-', 'b', 'y', 'x', 'a', 'x']
    = .error .notInTable := by
  have hloop : decodeLoop ['x', 'q', 'b', 'a', 'b', '-', 'b', 'y', 'x', 'a', 'x']
      (6 * 1) 1 1 [] = .error .notInTable := by
    rw [decodeLoop_step _ _ _ _ _ (by norm_num)]
    simp only [show decodeTuple (((['x', 'q', 'b', 'a', 'b', '-', 'b', 'y', 'x', 'a', 'x'] :
        List Char).drop 1).take 6) 1 = .error .notInTable from by decide]
  exact decode_framed_err (k := 1) (by decide) (by decide) (by decide) hloop

lemma encode_00 : encode [0, 0] = ['x', 'e', 'b', 'a', 'b', '-', 'b', 'y', 'x', 'a', 'x'] := by
  rw [encode_eq]; decide

lemma encode_000 : encode [0, 0, 0]
    = ['x', 'e', 'b', 'a', 'b', '-', 'b', 'y', 'b', 'a', 'x'] := by
  rw [encode_eq]; decide

lemma encode_0 : encode [0] = ['x', 'e', 'b', 'a', 'x'] := by
  rw [encode_eq]; decide

/-! ### The claims -/

/-- C1: for every byte sequence `B`, decoding the result of encoding `B`
yields `B` again, the decoder mirroring the encoder's running checksum
(initialised to 1, updated as `C' = (C*5 + b0*7 + b1) % 36` per
byte-pair). -/
theorem roundtrip_decode_encode (B : List Nat) (h : ∀ b ∈ B, b < 256) :
    decode (encode B) = .ok B :=
  decode_encode B h

theorem roundtrip_decode_encode_witness :
    (∀ b ∈ [80, 105, 110], b < 256)
      ∧ decode (encode [80, 105, 110]) = .ok [80, 105, 110] :=
  ⟨by decide, roundtrip_decode_encode [80, 105, 110] (by decide)⟩

/-- C2 counterexample: for the odd-length input `[0]` the final
3-character tail is `e`, `b`, `a` — it encodes the trailing byte, and its
middle character is `'b'`, not the reserved frame-delimiter consonant
`'x'` that the claim requires. -/
theorem encode_odd_trailing_byte_cx :
    encode [0] = ['x', 'e', 'b', 'a', 'x'] ∧ (encode [0]).getD 2 ' ' ≠ 'x' :=
  ⟨encode_0, by rw [encode_0]; decide⟩

/-- C2 amended: for every input of even length `n` (including `n = 0`) the
encoder's final 3-character tail is `vowel[C % 6]`, the reserved
frame-delimiter consonant, `vowel[C / 6]`, where `C` is the running
checksum after all pairs; for odd `n` the tail instead encodes the
trailing byte. -/
theorem encode_even_checksum_tail (B : List Nat) (h : B.length % 2 = 0) :
    (encode B).drop (6 * (B.length / 2) + 1)
      = [vowD (chainC B 1 % 6), 'x', vowD (chainC B 1 / 6), 'x'] := by
  rw [encode_eq]
  have hblen := encBody_length 1 B
  rw [List.drop_append_of_le_length (by simp only [List.length_cons, hblen]; omega)]
  rw [show (('x' :: encBody B 1).drop (6 * (B.length / 2) + 1))
      = (encBody B 1).drop (6 * (B.length / 2)) from List.drop_succ_cons]
  rw [encBody_drop, tailRest_even B h]
  simp [encBody, encEven, xDelim_eq]

theorem encode_even_checksum_tail_witness :
    ([1, 2] : List Nat).length % 2 = 0
      ∧ (encode [1, 2]).drop (6 * (([1, 2] : List Nat).length / 2) + 1)
        = [vowD (chainC [1, 2] 1 % 6), 'x', vowD (chainC [1, 2] 1 / 6), 'x'] :=
  ⟨by decide, encode_even_checksum_tail [1, 2] (by decide)⟩

/-- C3 counterexample: in `encode [0, 0]` the hyphen sits at position 5,
between the two consonants that encode `b1` (shape `vcvc-c`), not after
them at position 6 as the claimed shape `vcvcc-` requires. -/
theorem encode_hyphen_position_cx :
    encode [0, 0] = ['x', 'e', 'b', 'a', 'b', '-', 'b', 'y', 'x', 'a', 'x']
      ∧ (encode [0, 0]).getD 5 ' ' = '-'
      ∧ (encode [0, 0]).getD 6 ' ' ≠ '-' :=
  ⟨encode_00, by rw [encode_00]; decide, by rw [encode_00]; decide⟩

/-- C3 amended: for every full byte-pair the encoder emits the three
checksum-offset characters for `b0`, then the consonant for `b1`'s high
nibble, then a hyphen, then the consonant for `b1`'s low nibble, so every
encoded string has the overall shape `x` + (`vcvc-c`)* + `vcv` + `x`:
positions ≡ 5 (mod 6) hold `'-'`, positions ≡ 1, 3 (mod 6) hold vowels,
and positions ≡ 0, 2, 4 (mod 6) hold consonants. -/
theorem encode_shape (B : List Nat) (p : Nat) (c : Char)
    (h : (encode B)[p]? = some c) :
    (p % 6 = 5 → c = '-') ∧ ((p % 6 = 1 ∨ p % 6 = 3) → c ∈ vow)
      ∧ ((p % 6 = 0 ∨ p % 6 = 2 ∨ p % 6 = 4) → c ∈ con) :=
  encode_shape_aux B p c h

theorem encode_shape_witness :
    (encode [7, 7])[5]? = some '-'
      ∧ ((5 % 6 = 5 → '-' = '-') ∧ ((5 % 6 = 1 ∨ 5 % 6 = 3) → '-' ∈ vow)
        ∧ ((5 % 6 = 0 ∨ 5 % 6 = 2 ∨ 5 % 6 = 4) → '-' ∈ con)) :=
  ⟨by rw [encode_eq]; decide, encode_shape [7, 7] 5 '-' (by rw [encode_eq]; decide)⟩

/-- C4 counterexample: the claim fails in three independent ways on the
code.  Replacing the separator `'-'` of `encode [0,0]` (position 5) by
`'q'` — not a valid table character — leaves decoding untouched instead
of failing; replacing the tail-middle consonant of `encode [0,0,0]`
(position 8) by the delimiter `'x'` makes decode silently return the
truncated bytes `[0,0]`; and replacing position 1 by `'q'` does fail,
but with a table-membership error that carries no position. -/
theorem substitution_undetected_cx :
    encode [0, 0] = ['x', 'e', 'b', 'a', 'b', '-', 'b', 'y', 'x', 'a', 'x']
      ∧ decode ['x', 'e', 'b', 'a', 'b', 'q', 'b', 'y', 'x', 'a', 'x'] = .ok [0, 0]
      ∧ encode [0, 0, 0] = ['x', 'e', 'b', 'a', 'b', '-', 'b', 'y', 'b', 'a', 'x']
      ∧ decode ['x', 'e', 'b', 'a', 'b', '-', 'b', 'y', 'x', 'a', 'x'] = .ok [0, 0]
      ∧ decode ['x', 'q', 'b', 'a', 'b', '-', 'b', 'y', 'x', 'a', 'x'] = .error .notInTable
      ∧ Err.position .notInTable = none :=
  ⟨encode_00, decode_sep_q, encode_000, decode_enc00, decode_q_at1, rfl⟩

/-- C4 amended: not every single-character substitution is detected
(separator slots are ignored, out-of-table characters fail without a
position, and an `'x'` written into the final group's consonant slot can
silently truncate the output); what holds is that every valid encoding
admits a detected substitution with a reported position: putting `'y'`
at position 1 — where a valid encoding never has `'y'` — always makes
decode fail with `"Corrupt char at 1"`. -/
theorem substitution_position1_detected (B : List Nat) :
    (encode B).getD 1 ' ' ≠ 'y'
      ∧ decode ((encode B).set 1 'y') = .error (.corruptChar 1) :=
  ⟨encode_get1_ne_y B, decode_encode_set1 B⟩

/-- C5 counterexample: on input `"xzxax"` decode fails because `'z'` is
not in the vowel table, and that failure (Python's ValueError from
`str.index`) carries no character position. -/
theorem table_failure_no_position_cx :
    decode ['x', 'z', 'x', 'a', 'x'] = .error .notInTable
      ∧ Err.position .notInTable = none :=
  ⟨decode_xzxax, rfl⟩

/-- C5 amended: only the `"Corrupt char at %d"` failures (checksum-offset
range checks, nibble range checks and the tail checksum comparison)
carry a 0-based offset, and that offset always lies inside the input
string; framing, length, out-of-range and table-membership failures
carry no position. -/
theorem corrupt_position_in_range (s : List Char) (p : Nat)
    (h : decode s = .error (.corruptChar p)) : p < s.length :=
  decode_err_corrupt_lt h

theorem corrupt_position_in_range_witness :
    decode ['x', 'y', 'x', 'a', 'x'] = .error (.corruptChar 1)
      ∧ 1 < (['x', 'y', 'x', 'a', 'x'] : List Char).length :=
  ⟨decode_xyxax, corrupt_position_in_range _ 1 decode_xyxax⟩

/-- C6: every encoder output starts with the delimiter `'x'`, ends with
`'x'`, and has length ≡ 5 (mod 6). -/
theorem encode_framing (B : List Nat) :
    (encode B).head? = some 'x' ∧ (encode B).getLast? = some 'x'
      ∧ (encode B).length % 6 = 5 := by
  rw [encode_eq]
  refine ⟨rfl, List.getLast?_concat _, ?_⟩
  simp only [List.length_append, List.length_cons, List.length_nil,
    encBody_length]
  omega

/-- C7: encoding is total — the checked encoder, in which every sequence
and table index is bounds-checked, never fails and agrees with
`encode`. -/
theorem encode_never_fails (s : List Nat) : encode? s = some (encode s) := by
  unfold encode?
  rw [encodeFrom?_eq s (1 + s.length / 2) 0 1 rfl (by omega)]
  rw [encode]
  rfl

/-- C8: encoding the empty byte sequence yields exactly `"xexax"`. -/
theorem encode_empty_xexax : encode [] = ['x', 'e', 'x', 'a', 'x'] := by
  rw [encode_eq]; decide

/-- C9: the decoder never reads the separator slots: two strings of the
same valid length that agree at every position not congruent to 5 mod 6
decode to the same result, whatever characters sit at those slots. -/
theorem decode_separator_noninterference (s1 s2 : List Char)
    (hlen : s1.length = s2.length) (hval : s1.length % 6 = 5)
    (hagree : ∀ i, i < s1.length → i % 6 ≠ 5 → s1[i]? = s2[i]?) :
    decode s1 = decode s2 :=
  decode_congr_sep hlen hval hagree

theorem decode_separator_noninterference_witness :
    decode ['x', 'e', 'b', 'a', 'b', '-', 'b', 'y', 'x', 'a', 'x']
      = decode ['x', 'e', 'b', 'a', 'b', 'q', 'b', 'y', 'x', 'a', 'x'] :=
  decode_separator_noninterference _ _ (by decide) (by decide) (by decide)

/-- C10: decoding the empty string fails with the unguarded index access
`encoded[0]` (an IndexError), before any framing or length validation,
not with one of the structural validation errors. -/
theorem decode_empty_index_error :
    decode ([] : List Char) = .error .indexError
      ∧ Err.indexError ≠ Err.badBegin ∧ Err.indexError ≠ Err.badEnd
      ∧ Err.indexError ≠ Err.badLength := by
  exact ⟨by decide, by decide, by decide, by decide⟩

end BubbleBabble
